import Mathlib

/-!
# Verification of the `lld` course-downloader core (`main.go`)

A shallow embedding of the Go program in `main.go`: strings are `List Char`
(Go strings viewed as rune sequences), the sanitizer, filename formatting,
URL canonicalization, course-structure extraction (the in-page JS), the
navigator retry loop (`visitVideo`), the orchestrator (`main`), and the
video fetcher (`downloadVideo`) are translated as executable functions.
External collaborators (the browser session, the HTTP client, the
filesystem) appear as explicit inputs / state.
-/

namespace LLD

/-! ## Character classes

`invalidRE = [^a-zA-Z0-9._-]+` from `main.go` line 31: `validChar` is the
complement of the character class matched by the regex. -/

/-- A character kept by the sanitizer: the class `[a-zA-Z0-9._-]` of
`invalidRE` (main.go line 31). -/
def validChar (c : Char) : Bool :=
  (65 ≤ c.toNat && c.toNat ≤ 90) ||   -- A-Z
  (97 ≤ c.toNat && c.toNat ≤ 122) ||  -- a-z
  (48 ≤ c.toNat && c.toNat ≤ 57) ||   -- 0-9
  c.toNat == 46 || c.toNat == 95 || c.toNat == 45  -- . _ -

/-- Go `unicode.IsSpace`: the white-space runes trimmed by
`strings.TrimSpace` (main.go line 35). -/
def goIsSpace (c : Char) : Bool :=
  c.toNat == 9 || c.toNat == 10 || c.toNat == 11 || c.toNat == 12 ||
  c.toNat == 13 || c.toNat == 32 || c.toNat == 133 || c.toNat == 160 ||
  c.toNat == 0x1680 ||
  (0x2000 ≤ c.toNat && c.toNat ≤ 0x200A) ||
  c.toNat == 0x2028 || c.toNat == 0x2029 || c.toNat == 0x202F ||
  c.toNat == 0x205F || c.toNat == 0x3000

/-! ## The sanitizer (`sanitizeFileName`, main.go lines 33-37) -/

/-- The platform-branding substring removed first by `sanitizeFileName`:
`strings.ReplaceAll(s, "| LinkedIn Learning", "")` (main.go line 34). -/
def brandingPat : List Char :=
  ['|', ' ', 'L', 'i', 'n', 'k', 'e', 'd', 'I', 'n', ' ',
   'L', 'e', 'a', 'r', 'n', 'i', 'n', 'g']

/-- `strings.ReplaceAll(s, "| LinkedIn Learning", "")`: remove every
(leftmost, non-overlapping) occurrence of `brandingPat`.  The `Nat`
argument counts pattern characters still to be skipped after a match, so
the recursion consumes exactly one list cell per step. -/
def stripBrand : Nat → List Char → List Char
  | _, [] => []
  | k + 1, _ :: rest => stripBrand k rest
  | 0, c :: rest =>
      if brandingPat.isPrefixOf (c :: rest) then stripBrand 18 rest
      else c :: stripBrand 0 rest

/-- Go `strings.TrimSpace` (main.go line 35). -/
def trimSpace (l : List Char) : List Char :=
  ((l.dropWhile goIsSpace).reverse.dropWhile goIsSpace).reverse

/-- `invalidRE.ReplaceAllString(s, "_")`: replace every maximal run of
invalid characters by a single underscore.  The flag records whether the
previous character was part of an invalid run already replaced. -/
def collapseGo : Bool → List Char → List Char
  | _, [] => []
  | inRun, c :: rest =>
      if validChar c then c :: collapseGo false rest
      else if inRun then collapseGo true rest
      else '_' :: collapseGo true rest

/-- `sanitizeFileName` (main.go lines 33-37): strip the branding substring,
trim surrounding white space, replace each maximal run of characters
outside `[a-zA-Z0-9._-]` by `_`. -/
def sanitizeFileName (s : List Char) : List Char :=
  collapseGo false (trimSpace (stripBrand 0 s))

/-! ## Basic sanitizer lemmas -/

theorem collapseGo_all_valid (l : List Char) :
    ∀ b, (collapseGo b l).all validChar = true := by
  induction l with
  | nil => intro b; rfl
  | cons c rest ih =>
    intro b
    by_cases h : validChar c = true
    · simp [collapseGo, h, List.all_cons, ih]
    · simp only [collapseGo, h, Bool.false_eq_true, if_false]
      cases b with
      | true => simpa using ih true
      | false => simp [List.all_cons, ih]; rfl

theorem sanitize_all_valid (l : List Char) :
    (sanitizeFileName l).all validChar = true :=
  collapseGo_all_valid _ false

theorem valid_not_space (c : Char) (h : validChar c = true) :
    goIsSpace c = false := by
  cases hs : goIsSpace c with
  | false => rfl
  | true =>
    exfalso
    simp only [goIsSpace, Bool.or_eq_true, Bool.and_eq_true, decide_eq_true_eq,
      beq_iff_eq] at hs
    simp only [validChar, Bool.or_eq_true, Bool.and_eq_true, decide_eq_true_eq,
      beq_iff_eq] at h
    omega

theorem stripBrand_id_of_valid (l : List Char) (h : l.all validChar = true) :
    stripBrand 0 l = l := by
  induction l with
  | nil => rfl
  | cons c rest ih =>
    simp only [List.all_cons, Bool.and_eq_true] at h
    by_cases hp : brandingPat.isPrefixOf (c :: rest) = true
    · exfalso
      simp only [brandingPat, List.isPrefixOf, Bool.and_eq_true, beq_iff_eq] at hp
      have : validChar c = true := h.1
      rw [← hp.1] at this
      simp [validChar] at this
    · simp only [stripBrand, hp, Bool.false_eq_true, if_false]
      rw [ih h.2]

theorem trimSpace_id_of_valid (l : List Char) (h : l.all validChar = true) :
    trimSpace l = l := by
  have hall : ∀ x ∈ l, validChar x = true := by
    simpa [List.all_eq_true] using h
  have drop1 : l.dropWhile goIsSpace = l := by
    cases l with
    | nil => rfl
    | cons c rest =>
      have : goIsSpace c = false := valid_not_space c (hall c (by simp))
      simp [List.dropWhile_cons, this]
  have drop2 : l.reverse.dropWhile goIsSpace = l.reverse := by
    cases hr : l.reverse with
    | nil => rfl
    | cons c rest =>
      have hcmem : c ∈ l := by
        have : c ∈ l.reverse := by rw [hr]; simp
        simpa using this
      have : goIsSpace c = false := valid_not_space c (hall c hcmem)
      simp [List.dropWhile_cons, this]
  rw [trimSpace, drop1, drop2, List.reverse_reverse]

theorem collapseGo_id_of_valid (l : List Char) (h : l.all validChar = true) :
    collapseGo false l = l := by
  induction l with
  | nil => rfl
  | cons c rest ih =>
    simp only [List.all_cons, Bool.and_eq_true] at h
    simp [collapseGo, h.1, ih h.2]

/-- A string made only of valid characters is a fixed point of the
sanitizer. -/
theorem sanitize_id_of_valid (l : List Char) (h : l.all validChar = true) :
    sanitizeFileName l = l := by
  rw [sanitizeFileName, stripBrand_id_of_valid l h, trimSpace_id_of_valid l h,
    collapseGo_id_of_valid l h]

/-! ## Decimal formatting: `fmt.Sprintf("%02d", n)` (main.go line 234)

Go's `fmt` prints the decimal digits of the (non-negative) index,
zero-padded on the left to width 2.  `decDigitsCore` mirrors the usual
fuel-driven digit loop so that it is structurally recursive and reduces in
the kernel. -/

def decDigitsCore : Nat → Nat → List Char → List Char
  | 0, _, acc => acc
  | fuel + 1, n, acc =>
      if n < 10 then Nat.digitChar n :: acc
      else decDigitsCore fuel (n / 10) (Nat.digitChar (n % 10) :: acc)

/-- Decimal representation of `n` (most significant digit first). -/
def decRepr (n : Nat) : List Char := decDigitsCore (n + 1) n []

/-- `fmt.Sprintf("%02d", n)`: the decimal digits of `n`, left-padded with
`'0'` to width at least 2. -/
def pad2 (n : Nat) : List Char :=
  if (decRepr n).length < 2 then '0' :: decRepr n else decRepr n

/-- Reading a digit string back as a number (used to invert `pad2`). -/
def parseDecAux (a : Nat) (l : List Char) : Nat :=
  l.foldl (fun acc c => acc * 10 + (c.toNat - 48)) a

theorem digitChar_toNat (m : Nat) (h : m < 10) :
    (Nat.digitChar m).toNat = 48 + m := by
  interval_cases m <;> rfl

theorem decDigitsCore_acc (fuel n : Nat) (acc : List Char) :
    decDigitsCore fuel n acc = decDigitsCore fuel n [] ++ acc := by
  induction fuel generalizing n acc with
  | zero => rfl
  | succ fuel ih =>
    by_cases h : n < 10
    · simp [decDigitsCore, h]
    · simp only [decDigitsCore, h, if_false]
      rw [ih (n / 10) (Nat.digitChar (n % 10) :: acc),
        ih (n / 10) [Nat.digitChar (n % 10)], List.append_assoc]
      rfl

theorem parseDecAux_append (a : Nat) (l₁ l₂ : List Char) :
    parseDecAux a (l₁ ++ l₂) = parseDecAux (parseDecAux a l₁) l₂ :=
  List.foldl_append ..

theorem decDigitsCore_parse (fuel : Nat) :
    ∀ n a, n < 10 ^ fuel →
      parseDecAux a (decDigitsCore fuel n []) =
        a * 10 ^ (decDigitsCore fuel n []).length + n := by
  induction fuel with
  | zero =>
    intro n a h
    simp only [pow_zero, Nat.lt_one_iff] at h
    subst h
    simp [decDigitsCore, parseDecAux]
  | succ fuel ih =>
    intro n a h
    by_cases h10 : n < 10
    · simp only [decDigitsCore, h10, if_true, parseDecAux, List.foldl_cons,
        List.foldl_nil, List.length_cons, List.length_nil,
        digitChar_toNat n h10, pow_one]
      omega
    · have hdiv : n / 10 < 10 ^ fuel := by
        rw [Nat.div_lt_iff_lt_mul (by norm_num)]
        calc n < 10 ^ (fuel + 1) := h
          _ = 10 ^ fuel * 10 := by ring
      simp only [decDigitsCore, h10, if_false]
      rw [decDigitsCore_acc fuel (n / 10), parseDecAux_append,
        ih (n / 10) a hdiv]
      have hm : (n % 10) < 10 := Nat.mod_lt _ (by norm_num)
      simp only [parseDecAux, List.foldl_cons, List.foldl_nil,
        digitChar_toNat (n % 10) hm, List.length_append, List.length_cons,
        List.length_nil]
      have := Nat.div_add_mod n 10
      ring_nf
      omega

theorem parse_decRepr (n : Nat) : parseDecAux 0 (decRepr n) = n := by
  have hlt : n < 10 ^ (n + 1) := by
    calc n < 2 ^ n := Nat.lt_two_pow n
      _ ≤ 10 ^ n := Nat.pow_le_pow_left (by norm_num) n
      _ ≤ 10 ^ (n + 1) := Nat.pow_le_pow_right (by norm_num) (Nat.le_succ n)
  have := decDigitsCore_parse (n + 1) n 0 hlt
  simpa [decRepr] using this

theorem parse_pad2 (n : Nat) : parseDecAux 0 (pad2 n) = n := by
  unfold pad2
  by_cases h : (decRepr n).length < 2
  · simp only [h, if_true]
    have : parseDecAux 0 ('0' :: decRepr n) = parseDecAux 0 (decRepr n) := by
      simp [parseDecAux, List.foldl_cons]
    rw [this, parse_decRepr]
  · simp only [h, if_false]
    exact parse_decRepr n

theorem pad2_inj (a b : Nat) (h : pad2 a = pad2 b) : a = b := by
  have := parse_pad2 a
  rw [h, parse_pad2 b] at this
  omega

theorem decDigitsCore_digits (fuel : Nat) :
    ∀ n acc, (∀ c ∈ acc, 48 ≤ c.toNat ∧ c.toNat ≤ 57) →
      ∀ c ∈ decDigitsCore fuel n acc, 48 ≤ c.toNat ∧ c.toNat ≤ 57 := by
  induction fuel with
  | zero => intro n acc hacc; exact hacc
  | succ fuel ih =>
    intro n acc hacc c hc
    by_cases h10 : n < 10
    · simp only [decDigitsCore, h10, if_true] at hc
      rcases List.mem_cons.mp hc with hc | hc
      · subst hc
        rw [digitChar_toNat n h10]
        omega
      · exact hacc c hc
    · simp only [decDigitsCore, h10, if_false] at hc
      refine ih (n / 10) (Nat.digitChar (n % 10) :: acc) ?_ c hc
      intro d hd
      rcases List.mem_cons.mp hd with hd | hd
      · subst hd
        rw [digitChar_toNat _ (Nat.mod_lt _ (by norm_num))]
        omega
      · exact hacc d hd

theorem pad2_digits (n : Nat) :
    ∀ c ∈ pad2 n, 48 ≤ c.toNat ∧ c.toNat ≤ 57 := by
  intro c hc
  unfold pad2 at hc
  by_cases h : (decRepr n).length < 2
  · simp only [h, if_true] at hc
    rcases List.mem_cons.mp hc with hc | hc
    · subst hc; exact ⟨by decide, by decide⟩
    · exact decDigitsCore_digits (n + 1) n [] (by simp) c hc
  · simp only [h, if_false] at hc
    exact decDigitsCore_digits (n + 1) n [] (by simp) c hc

theorem pad2_all_valid (n : Nat) : (pad2 n).all validChar = true := by
  rw [List.all_eq_true]
  intro c hc
  have := pad2_digits n c hc
  simp only [validChar, Bool.or_eq_true, Bool.and_eq_true, decide_eq_true_eq,
    beq_iff_eq]
  omega

theorem pad2_no_dot (n : Nat) : '.' ∉ pad2 n := by
  intro hmem
  have := pad2_digits n '.' hmem
  simp at this

/-! ## The data model: `VideoEntry` (main.go lines 21-29)

Go's `Index` field is an `int`; every value the program ever stores in it
is a non-negative JS counter, so it is embedded as `Nat`.  The Go word
`section` is a Lean keyword, so the field keeps the spec's name
`sectionTitle`. -/

structure VideoEntry where
  href : List Char
  sectionTitle : List Char
  title : List Char
  index : Nat
  duration : List Char
  filename : List Char
deriving Repr, DecidableEq

/-- The argument of `sanitizeFileName` on main.go line 234:
`fmt.Sprintf("%s.%02d.%s", v.Section, v.Index, v.Title)`. -/
def formatEntry (sec : List Char) (idx : Nat) (title : List Char) :
    List Char :=
  sec ++ '.' :: (pad2 idx ++ '.' :: title)

/-- The base output name computed by the program (main.go line 234):
the sanitizer applied once to the whole composed string. -/
def goFileName (v : VideoEntry) : List Char :=
  sanitizeFileName (formatEntry v.sectionTitle v.index v.title)

/-- Modelled from the spec: the output-name composition as the spec words
it — `<sanitized-section>.<2-digit-index>.<sanitized-title>`, i.e. each
component sanitized individually and joined by literal dots.  Used only to
compare against `goFileName`, the name the code computes. -/
def specFileName (v : VideoEntry) : List Char :=
  sanitizeFileName v.sectionTitle ++ '.' ::
    (pad2 v.index ++ '.' :: sanitizeFileName v.title)

/-! ## URL canonicalization (main.go lines 226-237)

`url.Parse` / `URL.String` are Go standard-library collaborators, not code
of this repository.  Modelled from the spec: parsing splits off the
fragment (after `#`) and the query (after `?`, before the fragment) and
fails on the inputs the standard library rejects, modelled as URLs
containing an ASCII control character; re-serialization concatenates the
parts, omitting an empty query and an empty fragment — so clearing
`RawQuery` and re-serializing yields the pre-query part followed by the
fragment part. -/

structure GoURL where
  base : List Char
  rawQuery : List Char
  fragment : List Char
deriving Repr, DecidableEq

/-- An ASCII control character (rejected inside URLs by Go's
`net/url.Parse`). -/
def isCtl (c : Char) : Bool := c.toNat < 32 || c.toNat == 127

/-- Split a list at the first occurrence of `sep` (the separator itself is
dropped; if absent, the second component is empty). -/
def cutChar (sep : Char) : List Char → List Char × List Char
  | [] => ([], [])
  | c :: rest =>
      if c = sep then ([], rest)
      else
        let p := cutChar sep rest
        (c :: p.1, p.2)

/-- Modelled from the spec: Go `url.Parse` (external collaborator). -/
def parseURL (s : List Char) : Option GoURL :=
  if s.any isCtl then none
  else
    let pf := cutChar '#' s
    let pq := cutChar '?' pf.1
    some ⟨pq.1, pq.2, pf.2⟩

/-- Modelled from the spec: Go `URL.String` (external collaborator). -/
def urlString (u : GoURL) : List Char :=
  u.base ++ (if u.rawQuery = [] then [] else '?' :: u.rawQuery) ++
    (if u.fragment = [] then [] else '#' :: u.fragment)

/-- The canonical link stored for an entry: parse, clear the query
component, re-serialize (main.go lines 228-233). -/
def canonicalHref (h : List Char) : List Char :=
  match parseURL h with
  | none => h
  | some u => urlString ⟨u.base, [], u.fragment⟩

/-- The post-extraction loop of `parseCourseVideos` (main.go lines
226-235): canonicalize every link and assign the sanitized output stem;
the first malformed link makes the whole extraction fail. -/
def canonicalizeVideos : List VideoEntry → Option (List VideoEntry)
  | [] => some []
  | v :: rest =>
      match parseURL v.href with
      | none => none
      | some u =>
          match canonicalizeVideos rest with
          | none => none
          | some rest' =>
              some ({ v with href := urlString ⟨u.base, [], u.fragment⟩,
                             filename := goFileName v } :: rest')

/-! ## Splitting the composed filename back into its parts -/

theorem append_dot_inj (xs : List Char) :
    ∀ (ys u v : List Char), '.' ∉ xs → '.' ∉ ys →
      xs ++ '.' :: u = ys ++ '.' :: v → xs = ys ∧ u = v := by
  induction xs with
  | nil =>
    intro ys u v _ hy h
    cases ys with
    | nil => simpa using h
    | cons y ys' =>
      simp only [List.nil_append, List.cons_append, List.cons.injEq] at h
      exfalso
      exact hy (by rw [h.1]; simp)
  | cons x xs' ih =>
    intro ys u v hx hy h
    cases ys with
    | nil =>
      simp only [List.cons_append, List.nil_append, List.cons.injEq] at h
      exfalso
      exact hx (by rw [← h.1]; simp)
    | cons y ys' =>
      simp only [List.cons_append, List.cons.injEq] at h
      have hx' : '.' ∉ xs' := fun hm => hx (List.mem_cons_of_mem _ hm)
      have hy' : '.' ∉ ys' := fun hm => hy (List.mem_cons_of_mem _ hm)
      obtain ⟨h1, h2⟩ := ih ys' u v hx' hy' h.2
      exact ⟨by rw [h.1, h1], h2⟩

/-! The composed stem's prefix `section ++ "." ++ pad2 index ++ "."`
passes through each sanitizer stage untouched whatever the title is: the
branding pattern begins with the invalid character `'|'` so no match can
start inside the all-valid prefix; left trimming stops at the prefix's
valid head and right trimming cannot cross the `'.'` that precedes the
title; and run collapsing copies valid characters verbatim. -/

theorem stripBrand_append_valid (xs : List Char) :
    ∀ t, xs.all validChar = true →
      stripBrand 0 (xs ++ t) = xs ++ stripBrand 0 t := by
  induction xs with
  | nil => intro t _; rfl
  | cons c rest ih =>
    intro t h
    simp only [List.all_cons, Bool.and_eq_true] at h
    by_cases hp : brandingPat.isPrefixOf (c :: (rest ++ t)) = true
    · exfalso
      simp only [brandingPat, List.isPrefixOf, Bool.and_eq_true, beq_iff_eq] at hp
      have hc : validChar c = true := h.1
      rw [← hp.1] at hc
      simp [validChar] at hc
    · simp only [List.cons_append, stripBrand, List.append_eq, hp,
        Bool.false_eq_true, if_false]
      rw [ih t h.2]

theorem collapseGo_append_valid (xs : List Char) :
    ∀ w, xs.all validChar = true →
      collapseGo false (xs ++ w) = xs ++ collapseGo false w := by
  induction xs with
  | nil => intro w _; rfl
  | cons c rest ih =>
    intro w h
    simp only [List.all_cons, Bool.and_eq_true] at h
    simp only [List.cons_append, collapseGo, List.append_eq, h.1, if_true]
    rw [ih w h.2]

theorem trimSpace_append_valid (xs u : List Char)
    (hxs : xs.all validChar = true) (hne : xs ≠ []) :
    trimSpace (xs ++ u) = xs ++ (u.reverse.dropWhile goIsSpace).reverse := by
  have hall : ∀ x ∈ xs, validChar x = true := by
    simpa [List.all_eq_true] using hxs
  have drop1 : (xs ++ u).dropWhile goIsSpace = xs ++ u := by
    cases xs with
    | nil => exact absurd rfl hne
    | cons c rest =>
      have : goIsSpace c = false := valid_not_space c (hall c (by simp))
      simp [List.dropWhile_cons, this]
  have hxr : xs.reverse.dropWhile goIsSpace = xs.reverse := by
    cases hr : xs.reverse with
    | nil => rfl
    | cons c rest =>
      have hcmem : c ∈ xs := by
        have : c ∈ xs.reverse := by rw [hr]; simp
        simpa using this
      have : goIsSpace c = false := valid_not_space c (hall c hcmem)
      simp [List.dropWhile_cons, this]
  rw [trimSpace, drop1, List.reverse_append, List.dropWhile_append]
  by_cases hemp : (u.reverse.dropWhile goIsSpace).isEmpty = true
  · rw [if_pos hemp, hxr, List.reverse_reverse]
    have hu : u.reverse.dropWhile goIsSpace = [] := by
      simpa [List.isEmpty_iff] using hemp
    rw [hu]
    simp
  · rw [if_neg (by simpa using hemp), List.reverse_append, List.reverse_reverse]

/-- Sanitizing the composed string leaves the valid prefix
`section ++ "." ++ pad2 index ++ "."` intact and acts only on the title
part. -/
theorem sanitize_formatEntry (s t : List Char) (i : Nat)
    (hs : s.all validChar = true) :
    sanitizeFileName (formatEntry s i t) =
      (s ++ '.' :: pad2 i ++ ['.']) ++
        collapseGo false (((stripBrand 0 t).reverse.dropWhile goIsSpace).reverse) := by
  have hpre : (s ++ '.' :: pad2 i ++ ['.']).all validChar = true := by
    simp +decide [List.all_append, List.all_cons, hs, pad2_all_valid]
  have hne : (s ++ '.' :: pad2 i ++ ['.']) ≠ [] := by simp
  have hsplit : formatEntry s i t = (s ++ '.' :: pad2 i ++ ['.']) ++ t := by
    simp [formatEntry]
  rw [hsplit, sanitizeFileName, stripBrand_append_valid _ t hpre,
    trimSpace_append_valid _ _ hpre hne, collapseGo_append_valid _ _ hpre]

/-- The composed, sanitized output stem determines the
(section, index) pair, provided the section is made of valid characters
and contains no dot — the title may be arbitrary. -/
theorem stem_inj (s₁ t₁ s₂ t₂ : List Char) (i₁ i₂ : Nat)
    (hs₁ : s₁.all validChar = true) (hd₁ : '.' ∉ s₁)
    (hs₂ : s₂.all validChar = true) (hd₂ : '.' ∉ s₂)
    (h : sanitizeFileName (formatEntry s₁ i₁ t₁) =
         sanitizeFileName (formatEntry s₂ i₂ t₂)) :
    s₁ = s₂ ∧ i₁ = i₂ := by
  rw [sanitize_formatEntry s₁ t₁ i₁ hs₁, sanitize_formatEntry s₂ t₂ i₂ hs₂] at h
  simp only [List.append_assoc, List.cons_append, List.singleton_append,
    List.nil_append] at h
  obtain ⟨hsec, h2⟩ := append_dot_inj s₁ s₂ _ _ hd₁ hd₂ h
  obtain ⟨hpad, -⟩ :=
    append_dot_inj (pad2 i₁) (pad2 i₂) _ _ (pad2_no_dot i₁) (pad2_no_dot i₂) h2
  exact ⟨hsec, pad2_inj _ _ hpad⟩

/-! ## The resilient navigator: `visitVideo` (main.go lines 275-304)

Each recursive call performs one navigation attempt
(`chromedp.Navigate` + the two `Evaluate`s).  The environment is the
sequence of per-attempt outcomes the browser would produce: either the
`chromedp.Run` call fails (`navError`), or the page loads and yields the
two boolean markers (`.error-body` rate-limit marker, `TRANSCRIPT` button
availability marker).  The function returns the final result together
with the number of navigation attempts performed and the number of
backoff sleeps executed; if the outcome stream runs out while the code
would still be retrying, the result is `pending` (the real program would
go on retrying). -/

/-- `const maxRetry = 6` (main.go line 276). -/
def maxRetry : Nat := 6

inductive PageOutcome where
  | navError
  | page (rateLimited : Bool) (hasTranscript : Bool)
deriving Repr, DecidableEq

inductive VisitResult where
  | navFailedStop
  | noTranscript
  | ready
  | pending
deriving Repr, DecidableEq

/-- `visitVideo` (main.go lines 278-304), returning
`(result, attempts, sleeps)`. -/
def visitVideo : List PageOutcome → Nat → VisitResult × Nat × Nat
  | [], _ => (.pending, 0, 0)
  | .navError :: rest, count =>
      if count ≥ maxRetry then (.navFailedStop, 1, 0)
      else
        let r := visitVideo rest (count + 1)
        (r.1, r.2.1 + 1, r.2.2 + 1)
  | .page rateLimited hasTranscript :: rest, count =>
      if rateLimited then
        let r := visitVideo rest (count + 1)
        (r.1, r.2.1 + 1, r.2.2 + 1)
      else if !hasTranscript then (.noTranscript, 1, 0)
      else (.ready, 1, 0)

/-! ## Course-structure extraction: `videoParseJS` (main.go lines 39-66)

The in-page script walks `section.classroom-toc-section` containers and
their `li.classroom-toc-item` children.  An item is modelled by the data
the script reads from it: whether a `a.classroom-toc-item__link` resolves
(and its `href`), the trimmed text of its title node, and the trimmed
`innerText` of its `span` descendants (from which the duration label is
derived).  Items whose title node is missing make the script throw and are
outside this model; the DOM layout is a fixed external contract. -/

structure TocItem where
  hasLink : Bool
  linkHref : List Char
  title : List Char
  spans : List (List Char)
deriving Repr, DecidableEq

structure TocSection where
  name : List Char
  items : List TocItem
deriving Repr, DecidableEq

/-- `spans.map(...).find(text => text.toLowerCase().endsWith("video")) || ""`
followed by `duration.split(' ').slice(0, -1).join('')`. -/
def durationOf (spans : List (List Char)) : List Char :=
  match spans.find? (fun s =>
      ['v', 'i', 'd', 'e', 'o'].isSuffixOf (s.map Char.toLower)) with
  | none => []
  | some s => ((s.splitOn ' ').dropLast).flatten

/-- The inner loop of `videoParseJS`: `index` starts at 0, items without a
link are skipped (`if (!link) continue`), `index++` happens only for kept
items, which are pushed with the incremented value. -/
def extractItems (sectionName : List Char) :
    List TocItem → Nat → List VideoEntry
  | [], _ => []
  | it :: rest, index =>
      if it.hasLink then
        { href := it.linkHref, sectionTitle := sectionName,
          title := it.title, index := index + 1,
          duration := durationOf it.spans, filename := [] } ::
          extractItems sectionName rest (index + 1)
      else extractItems sectionName rest index

/-- One `section` iteration of `videoParseJS`. -/
def extractSection (s : TocSection) : List VideoEntry :=
  extractItems s.name s.items 0

/-- The whole `videoParseJS` evaluation: sections in document order, one
shared `results` array. -/
def extractCourse (sections : List TocSection) : List VideoEntry :=
  (sections.map extractSection).flatten

/-! ## The orchestrator: `main` (main.go lines 68-117)

`main` is modelled on the decisions it takes: the three boolean flags, the
outcome of `ssoLogin` (external), the raw result of the in-browser course
extraction (`none` = the `chromedp.Run` in `parseCourseVideos` failed),
and the per-lesson behaviour of the external world (the navigator's
per-attempt outcome stream and the two fetchers' success).  Per Go
semantics, `log.Fatal`/`log.Fatalf` call `os.Exit(1)`, which terminates
the process *without* running deferred functions, so the deferred
combined cancel from `newChromeDPCtx` (main.go lines 82-83, 260-264) runs
only when `main` returns normally; `cancelCalled` records whether it ran. -/

structure Flags where
  dlTranscripts : Bool
  saveJSON : Bool
  dlVideos : Bool
deriving Repr, DecidableEq

structure LessonBehavior where
  visitOutcomes : List PageOutcome
  transcriptOk : Bool
  videoOk : Bool
deriving Repr, DecidableEq

inductive LessonResult where
  | visitFailed
  | transcriptFailed
  | videoFailed
  | completed
deriving Repr, DecidableEq

inductive ExitStatus where
  | fatalFlags
  | fatalAuth
  | fatalExtract
  | success
deriving Repr, DecidableEq

structure RunOutcome where
  status : ExitStatus
  lessons : List LessonResult
  cancelCalled : Bool
deriving Repr, DecidableEq

/-- One iteration of the lesson loop (main.go lines 96-114): a failed
visit, a failed transcript fetch (when requested), or a failed video fetch
(when requested) each log and `continue`; otherwise the lesson completes.
Every branch falls through to the next lesson. -/
def processLesson (fl : Flags) (b : LessonBehavior) : LessonResult :=
  if (visitVideo b.visitOutcomes 0).1 ≠ .ready then .visitFailed
  else if fl.dlTranscripts && !b.transcriptOk then .transcriptFailed
  else if fl.dlVideos && !b.videoOk then .videoFailed
  else .completed

/-- `main` (main.go lines 68-117): flag check, `ssoLogin`,
`parseCourseVideos` (raw extraction then `canonicalizeVideos`), then the
per-lesson loop; normal return runs the deferred cancel. -/
def runMain (fl : Flags) (authOk : Bool) (raw : Option (List VideoEntry))
    (beh : Nat → LessonBehavior) : RunOutcome :=
  if !fl.dlVideos && !fl.dlTranscripts then ⟨.fatalFlags, [], false⟩
  else if !authOk then ⟨.fatalAuth, [], false⟩
  else
    match raw.bind canonicalizeVideos with
    | none => ⟨.fatalExtract, [], false⟩
    | some vs =>
        ⟨.success, (List.range vs.length).map (fun i => processLesson fl (beh i)),
          true⟩

/-! ## The video fetcher: `downloadVideo` (main.go lines 168-213)

The filesystem is an association list from file names to contents (bytes
as characters); `fsSet` models `os.Create` (truncate) and writing.  The
environment carries what the external world does at each step: the
scraped `src` attribute (`none` = the `chromedp.Run` failed), whether
`os.Create` succeeds, whether building the request succeeds, the HTTP
response (`none` = transport error, otherwise status and body), and
whether `io.Copy` completes (else it fails after `copyPartial` bytes). -/

def FS := List (List Char × List Char)

def fsSet (fs : FS) (name content : List Char) : FS :=
  (name, content) :: fs

def fsGet (fs : FS) (name : List Char) : Option (List Char) :=
  (fs.find? (fun p => p.1 == name)).map (fun p => p.2)

structure DVEnv where
  videoSrc : Option (List Char)
  createOk : Bool
  buildOk : Bool
  response : Option (Nat × List Char)
  copyOk : Bool
  copyPartial : Nat
deriving Repr, DecidableEq

inductive DVResult where
  | scrapeFailed
  | emptyURL
  | createFailed
  | buildFailed
  | doFailed
  | badStatus (status : Nat)
  | copyFailed
  | saved
deriving Repr, DecidableEq

/-- `downloadVideo` (main.go lines 168-213): scrape the video source, reject
an empty URL, create (truncate) `filename + ".mp4"`, build the request,
perform it, check for status 200, stream the body to the file.  Error
returns leave the filesystem as it is at that point. -/
def downloadVideo (env : DVEnv) (v : VideoEntry) (fs : FS) : DVResult × FS :=
  match env.videoSrc with
  | none => (.scrapeFailed, fs)
  | some url =>
      if url = [] then (.emptyURL, fs)
      else
        let fname := v.filename ++ ['.', 'm', 'p', '4']
        if !env.createOk then (.createFailed, fs)
        else
          let fs₁ := fsSet fs fname []
          if !env.buildOk then (.buildFailed, fs₁)
          else
            match env.response with
            | none => (.doFailed, fs₁)
            | some (status, body) =>
                if status ≠ 200 then (.badStatus status, fs₁)
                else if env.copyOk then (.saved, fsSet fs₁ fname body)
                else (.copyFailed, fsSet fs₁ fname (body.take env.copyPartial))

/-! ## Claim C2: the sanitizer contract -/

/-- C2: for every input string `x`, `sanitize (sanitize x) = sanitize x`,
every character of `sanitize x` lies in `[A-Za-z0-9._-]`, `sanitize` is
total (it is a function), and `sanitize "" = ""`. -/
theorem sanitize_contract_C2 :
    (∀ l : List Char, sanitizeFileName (sanitizeFileName l) = sanitizeFileName l) ∧
    (∀ l : List Char, (sanitizeFileName l).all validChar = true) ∧
    sanitizeFileName [] = [] :=
  ⟨fun l => sanitize_id_of_valid _ (sanitize_all_valid l), sanitize_all_valid, rfl⟩

/-! ## Claim C4: structural unavailability is immediate -/

/-- C4: when the page loads with the rate-limit marker unset and the
artifact-availability marker absent, `visitVideo` returns the
no-transcript outcome on that very attempt: one navigation attempt in
total (so zero additional attempts) and zero backoff sleeps, whatever the
remaining environment and the current retry counter are. -/
theorem visit_no_artifact_immediate_C4 (rest : List PageOutcome) (count : Nat) :
    visitVideo (.page false false :: rest) count =
      (.noTranscript, 1, 0) := rfl

/-! ## Claim C1: the retry budget -/

/-- C1 counterexample: eight consecutive rate-limit outcomes make
`visitVideo` perform 8 navigation attempts — 7 of them retries, exceeding
the configured bound `maxRetry = 6` — and it still has not produced the
terminal error: the bound is never checked on the rate-limit path
(main.go lines 295-298), so the claimed shared bound does not hold. -/
theorem visit_rate_limit_unbounded_C1 :
    visitVideo (List.replicate 8 (.page true true)) 0 = (.pending, 8, 8) ∧
    maxRetry = 6 ∧
    (visitVideo (List.replicate 8 (.page true true)) 0).1 ≠ .navFailedStop := by
  decide

/-- C1 (amended): the retry counter is shared — both transient kinds
increment it — but the bound `maxRetry = 6` is enforced only when a
navigation error occurs: (a) a navigation error with counter at the bound
is terminal; (b) when every outcome is a navigation fault, the number of
attempts stays within the budget (from counter `count`, at most
`maxRetry + 1 - count` attempts, i.e. at most 6 retries from 0); (c)
whenever a terminal result is reached, attempts = sleeps + 1: exactly one
backoff sleep separates consecutive attempts. -/
theorem visit_retry_bound_amended_C1 :
    (∀ (rest : List PageOutcome) (count : Nat), maxRetry ≤ count →
      visitVideo (.navError :: rest) count = (.navFailedStop, 1, 0)) ∧
    (∀ (outs : List PageOutcome) (count : Nat),
      (∀ o ∈ outs, o = PageOutcome.navError) →
      (visitVideo outs count).2.1 + min count maxRetry ≤ maxRetry + 1) ∧
    (∀ (outs : List PageOutcome) (count : Nat),
      (visitVideo outs count).1 ≠ .pending →
      (visitVideo outs count).2.1 = (visitVideo outs count).2.2 + 1) := by
  refine ⟨?_, ?_, ?_⟩
  · intro rest count h
    simp [visitVideo, ge_iff_le, h]
  · intro outs
    induction outs with
    | nil =>
      intro count _
      simp only [visitVideo]
      have : min count maxRetry ≤ maxRetry := Nat.min_le_right ..
      omega
    | cons o rest ih =>
      intro count hall
      have ho : o = PageOutcome.navError := hall o (by simp)
      subst ho
      have hrest : ∀ o ∈ rest, o = PageOutcome.navError :=
        fun o hm => hall o (List.mem_cons_of_mem _ hm)
      by_cases hc : count ≥ maxRetry
      · simp only [visitVideo, hc, if_true]
        have : maxRetry ≤ min count maxRetry := by
          simp [Nat.le_min]
          omega
        simp only [maxRetry] at *
        omega
      · simp only [visitVideo, hc, if_false]
        have := ih (count + 1) hrest
        simp only [maxRetry] at *
        omega
  · intro outs
    induction outs with
    | nil =>
      intro count h
      simp [visitVideo] at h
    | cons o rest ih =>
      intro count h
      cases o with
      | navError =>
        by_cases hc : count ≥ maxRetry
        · simp [visitVideo, hc]
        · simp only [visitVideo, hc, if_false] at h ⊢
          exact congrArg (· + 1) (ih (count + 1) h)
      | page rateLimited hasTranscript =>
        cases rateLimited with
        | true =>
          simp only [visitVideo, if_true] at h ⊢
          exact congrArg (· + 1) (ih (count + 1) h)
        | false =>
          cases hasTranscript with
          | true => simp [visitVideo]
          | false => simp [visitVideo]

/-- C1 witness: the amended bound at concrete inputs — a navigation error
with the counter at the bound is terminal, and an all-navigation-fault
run of nine outcomes stays within the attempt budget. -/
theorem visit_retry_bound_amended_C1_witness :
    visitVideo [PageOutcome.navError] maxRetry = (.navFailedStop, 1, 0) ∧
    (visitVideo (List.replicate 9 PageOutcome.navError) 0).2.1 + min 0 maxRetry ≤
      maxRetry + 1 :=
  ⟨visit_retry_bound_amended_C1.1 [] maxRetry (Nat.le_refl _),
   visit_retry_bound_amended_C1.2.1 (List.replicate 9 PageOutcome.navError) 0
     (by decide)⟩

/-! ## Claim C8: extraction keeps exactly the link-bearing items -/

theorem extractItems_length (name : List Char) (items : List TocItem) :
    ∀ idx, (extractItems name items idx).length =
      (items.filter (fun it => it.hasLink)).length := by
  induction items with
  | nil => intro idx; rfl
  | cons it rest ih =>
    intro idx
    by_cases h : it.hasLink = true
    · simp [extractItems, h, List.filter_cons, ih]
    · simp only [Bool.not_eq_true] at h
      simp [extractItems, h, List.filter_cons, ih]

theorem extractItems_indices (name : List Char) (items : List TocItem) :
    ∀ idx, (extractItems name items idx).map (fun e => e.index) =
      List.range' (idx + 1) (items.filter (fun it => it.hasLink)).length := by
  induction items with
  | nil => intro idx; rfl
  | cons it rest ih =>
    intro idx
    by_cases h : it.hasLink = true
    · simp only [extractItems, h, if_true, List.map_cons, ih (idx + 1),
        List.filter_cons, List.length_cons]
      rw [List.range'_succ (idx + 1) _ 1]
    · simp only [Bool.not_eq_true] at h
      simp [extractItems, h, List.filter_cons, ih]

/-- C8: the in-page extraction keeps exactly the lesson items with a
resolvable link — the output length is the number of link-bearing items,
summed over the sections — and within each section the indices assigned to
the kept items are exactly the contiguous sequence `1..k`. -/
theorem extraction_contiguous_C8 :
    ∀ sections : List TocSection,
      (extractCourse sections).length =
        (sections.map
          (fun s => (s.items.filter (fun it => it.hasLink)).length)).sum ∧
      ∀ s : TocSection,
        (extractSection s).map (fun e => e.index) =
          List.range' 1 ((s.items.filter (fun it => it.hasLink)).length) := by
  intro sections
  constructor
  · rw [extractCourse, List.length_flatten, List.map_map]
    exact congrArg List.sum
      (List.map_congr_left (fun s _ => extractItems_length s.name s.items 0))
  · intro s
    exact extractItems_indices s.name s.items 0

/-! ## Canonicalization helpers -/

theorem canonicalizeVideos_none_iff (vs : List VideoEntry) :
    canonicalizeVideos vs = none ↔ ∃ v ∈ vs, parseURL v.href = none := by
  induction vs with
  | nil => simp [canonicalizeVideos]
  | cons v rest ih =>
    cases hp : parseURL v.href with
    | none =>
      simp only [canonicalizeVideos, hp, true_iff]
      exact ⟨v, by simp, hp⟩
    | some u =>
      cases hr : canonicalizeVideos rest with
      | none =>
        simp only [canonicalizeVideos, hp, hr, true_iff]
        obtain ⟨w, hw, hwp⟩ := ih.mp hr
        exact ⟨w, List.mem_cons_of_mem _ hw, hwp⟩
      | some rest' =>
        simp only [canonicalizeVideos, hp, hr]
        constructor
        · intro h; exact absurd h (by simp)
        · rintro ⟨w, hw, hwp⟩
          rcases List.mem_cons.mp hw with rfl | hw
          · rw [hp] at hwp; exact absurd hwp (by simp)
          · have : canonicalizeVideos rest = none := ih.mpr ⟨w, hw, hwp⟩
            rw [hr] at this
            exact absurd this (by simp)

theorem canonicalizeVideos_some_map (vs : List VideoEntry) :
    ∀ out, canonicalizeVideos vs = some out →
      out.map (fun v => v.href) = vs.map (fun v => canonicalHref v.href) ∧
      out.map (fun v => v.filename) = vs.map goFileName ∧
      out.length = vs.length := by
  induction vs with
  | nil =>
    intro out h
    simp only [canonicalizeVideos, Option.some.injEq] at h
    subst h
    simp
  | cons v rest ih =>
    intro out h
    cases hp : parseURL v.href with
    | none => rw [canonicalizeVideos, hp] at h; exact absurd h (by simp)
    | some u =>
      rw [canonicalizeVideos, hp] at h
      cases hr : canonicalizeVideos rest with
      | none => rw [hr] at h; exact absurd h (by simp)
      | some rest' =>
        rw [hr, Option.some.injEq] at h
        subst h
        obtain ⟨h1, h2, h3⟩ := ih rest' hr
        refine ⟨?_, ?_, ?_⟩
        · simp only [List.map_cons, h1, canonicalHref, hp]
        · simp only [List.map_cons, h2]
        · simp only [List.length_cons, h3]

/-! ## Claim C5: per-lesson failures never abort the traversal -/

/-- C5: with valid flags, successful authentication and successful
extraction, the run exits with success status no matter what the
per-lesson behaviours are, and every extracted lesson is processed (one
loop iteration per entry — the loop always proceeds to the next lesson);
authentication failure and extraction failure, by contrast, are the fatal
non-zero exits. -/
theorem orchestrator_isolation_C5 (fl : Flags) (raw vs : List VideoEntry)
    (beh : Nat → LessonBehavior)
    (hfl : fl.dlVideos = true ∨ fl.dlTranscripts = true)
    (hext : canonicalizeVideos raw = some vs) :
    (runMain fl true (some raw) beh).status = .success ∧
    (runMain fl true (some raw) beh).lessons.length = vs.length ∧
    (runMain fl false (some raw) beh).status = .fatalAuth ∧
    (runMain fl true none beh).status = .fatalExtract := by
  have hflag : (!fl.dlVideos && !fl.dlTranscripts) = false := by
    rcases hfl with h | h <;> simp [h]
  refine ⟨?_, ?_, ?_, ?_⟩ <;>
    simp [runMain, hflag, Option.bind, hext]

/-- C5 witness: a concrete run (transcripts requested, empty course). -/
theorem orchestrator_isolation_C5_witness :
    (runMain ⟨true, false, false⟩ true (some [])
      (fun _ => ⟨[], true, true⟩)).status = .success ∧
    (runMain ⟨true, false, false⟩ true (some [])
      (fun _ => ⟨[], true, true⟩)).lessons.length = ([] : List VideoEntry).length ∧
    (runMain ⟨true, false, false⟩ false (some [])
      (fun _ => ⟨[], true, true⟩)).status = .fatalAuth ∧
    (runMain ⟨true, false, false⟩ true none
      (fun _ => ⟨[], true, true⟩)).status = .fatalExtract :=
  orchestrator_isolation_C5 ⟨true, false, false⟩ [] []
    (fun _ => ⟨[], true, true⟩) (Or.inr rfl) rfl

/-! ## Claim C6: links are canonicalized, malformed links are fatal -/

/-- C6: extraction post-processing stores, for every entry, the link
re-serialized with the query component cleared (`canonicalHref`); it
fails exactly when some link does not parse; and such a failure makes the
whole run exit fatally with no lessons attempted. -/
theorem canonical_links_C6 (vs : List VideoEntry) :
    (canonicalizeVideos vs = none ↔ ∃ v ∈ vs, parseURL v.href = none) ∧
    (∀ out, canonicalizeVideos vs = some out →
      out.map (fun v => v.href) = vs.map (fun v => canonicalHref v.href)) ∧
    (∀ (fl : Flags) (beh : Nat → LessonBehavior),
      (fl.dlVideos = true ∨ fl.dlTranscripts = true) →
      canonicalizeVideos vs = none →
      runMain fl true (some vs) beh = ⟨.fatalExtract, [], false⟩) := by
  refine ⟨canonicalizeVideos_none_iff vs, ?_, ?_⟩
  · intro out h
    exact (canonicalizeVideos_some_map vs out h).1
  · intro fl beh hfl hnone
    have hflag : (!fl.dlVideos && !fl.dlTranscripts) = false := by
      rcases hfl with h | h <;> simp [h]
    simp [runMain, hflag, Option.bind, hnone]

/-- A malformed link: Go's `url.Parse` rejects URLs containing an ASCII
control character. -/
def badLinkEntry : VideoEntry :=
  ⟨['h', Char.ofNat 3], ['S'], ['T'], 1, [], []⟩

/-- C6 witness: on a course whose single entry has a malformed link,
extraction fails and the run aborts fatally with no lessons attempted;
on a well-formed entry the stored link is the query-stripped form. -/
theorem canonical_links_C6_witness :
    canonicalizeVideos [badLinkEntry] = none ∧
    runMain ⟨true, false, false⟩ true (some [badLinkEntry])
      (fun _ => ⟨[], true, true⟩) = ⟨.fatalExtract, [], false⟩ ∧
    ([(⟨['a'], ['S'], ['T'], 1, [], ['S', '.', '0', '1', '.', 'T']⟩ : VideoEntry)]).map
      (fun v => v.href) =
    ([(⟨('a' :: '?' :: ['q']), ['S'], ['T'], 1, [], []⟩ : VideoEntry)]).map
      (fun v => canonicalHref v.href) := by
  refine ⟨?_, ?_, ?_⟩
  · exact (canonical_links_C6 [badLinkEntry]).1.mpr
      ⟨badLinkEntry, by simp, by decide⟩
  · exact (canonical_links_C6 [badLinkEntry]).2.2 ⟨true, false, false⟩
      (fun _ => ⟨[], true, true⟩) (Or.inr rfl)
      ((canonical_links_C6 [badLinkEntry]).1.mpr
        ⟨badLinkEntry, by simp, by decide⟩)
  · exact (canonical_links_C6
      [(⟨('a' :: '?' :: ['q']), ['S'], ['T'], 1, [], []⟩ : VideoEntry)]).2.1
      [(⟨['a'], ['S'], ['T'], 1, [], ['S', '.', '0', '1', '.', 'T']⟩ : VideoEntry)]
      (by decide)

/-! ## Claim C7: how the output base name is composed -/

/-- The entry exhibiting the divergence: a section title with a trailing
space. -/
def exC7 : VideoEntry := ⟨['h'], ['A', ' '], ['T'], 1, [], []⟩

/-- C7 counterexample: the program sanitizes the *whole* composed string
(main.go line 234), which is not the composition of individually
sanitized components: for a section title `"A "` the code produces
`"A_.01.T"` while the individually-sanitized composition is `"A.01.T"`. -/
theorem output_name_not_componentwise_C7 :
    goFileName exC7 ≠ specFileName exC7 ∧
    goFileName exC7 = ['A', '_', '.', '0', '1', '.', 'T'] ∧
    specFileName exC7 = ['A', '.', '0', '1', '.', 'T'] ∧
    canonicalizeVideos [exC7] =
      some [⟨['h'], ['A', ' '], ['T'], 1, [], ['A', '_', '.', '0', '1', '.', 'T']⟩] := by
  decide

/-- C7 (amended): each entry's output base name is the sanitizer applied
once to the whole composed string
`section ++ "." ++ zero-padded-index ++ "." ++ title` (not to the
components individually). -/
theorem output_name_composition_amended_C7 (vs : List VideoEntry)
    (out : List VideoEntry) (h : canonicalizeVideos vs = some out) :
    out.map (fun v => v.filename) =
      vs.map (fun v =>
        sanitizeFileName (v.sectionTitle ++ '.' :: (pad2 v.index ++ '.' :: v.title))) :=
  (canonicalizeVideos_some_map vs out h).2.1

/-- C7 witness: the amended composition at the concrete entry. -/
theorem output_name_composition_amended_C7_witness :
    [(⟨['h'], ['A', ' '], ['T'], 1, [],
        ['A', '_', '.', '0', '1', '.', 'T']⟩ : VideoEntry)].map
      (fun v => v.filename) =
    [exC7].map (fun v =>
      sanitizeFileName (v.sectionTitle ++ '.' :: (pad2 v.index ++ '.' :: v.title))) :=
  output_name_composition_amended_C7 [exC7]
    [⟨['h'], ['A', ' '], ['T'], 1, [], ['A', '_', '.', '0', '1', '.', 'T']⟩]
    (by decide)

/-! ## Claim C3: uniqueness of the output stems -/

def exC3a : VideoEntry := ⟨['h'], ['A', ' ', 'B'], ['T'], 1, [], []⟩

def exC3b : VideoEntry := ⟨['h'], ['A', '?', 'B'], ['T'], 1, [], []⟩

/-- C3 counterexample: the course `[exC3a, exC3b]` is well-formed in the
claim's sense — the two entries have distinct section titles (so
section/index pairs are distinct and the per-section index is trivially
unique) — yet both output stems sanitize to `"A_B.01.T"`: sanitization of
the composed string can identify distinct well-formed entries. -/
theorem outputStem_collision_C3 :
    exC3a.sectionTitle ≠ exC3b.sectionTitle ∧
    (exC3a.sectionTitle, exC3a.index) ≠ (exC3b.sectionTitle, exC3b.index) ∧
    goFileName exC3a = goFileName exC3b ∧
    goFileName exC3a = ['A', '_', 'B', '.', '0', '1', '.', 'T'] := by
  decide

/-- C3 (amended): the output stems of a well-formed course (pairwise
distinct section/index pairs) are pairwise distinct provided, in
addition, every entry's section title consists only of characters in
`[A-Za-z0-9._-]` (so sanitization leaves it unchanged) and contains no
dot; the lesson titles may be arbitrary. -/
theorem outputStem_unique_amended_C3 (l : List VideoEntry)
    (hvalid : ∀ e ∈ l, e.sectionTitle.all validChar = true ∧
      '.' ∉ e.sectionTitle)
    (hpairs : l.Pairwise (fun a b =>
      a.sectionTitle ≠ b.sectionTitle ∨ a.index ≠ b.index)) :
    (l.map goFileName).Pairwise (· ≠ ·) := by
  rw [List.pairwise_map]
  refine hpairs.imp_of_mem ?_
  intro a b ha hb hab heq
  obtain ⟨hsa, hda⟩ := hvalid a ha
  obtain ⟨hsb, hdb⟩ := hvalid b hb
  obtain ⟨h1, h2⟩ := stem_inj a.sectionTitle a.title b.sectionTitle b.title
    a.index b.index hsa hda hsb hdb heq
  rcases hab with h | h
  · exact h h1
  · exact h h2

/-- C3 witness: two entries with sanitizer-fixed, dot-free section titles
and distinct section/index pairs have distinct stems. -/
theorem outputStem_unique_amended_C3_witness :
    ([(⟨['h'], ['A'], ['T'], 1, [], []⟩ : VideoEntry),
      (⟨['h'], ['B'], ['T'], 1, [], []⟩ : VideoEntry)].map goFileName).Pairwise
      (· ≠ ·) :=
  outputStem_unique_amended_C3
    [⟨['h'], ['A'], ['T'], 1, [], []⟩, ⟨['h'], ['B'], ['T'], 1, [], []⟩]
    (by decide) (by decide)

/-! ## Claim C9: teardown on exit paths -/

/-- C9 counterexample: on the authentication-failure exit path the process
terminates (`log.Fatal` → `os.Exit(1)`, which does not run deferred
functions), and the browser session's combined cancel has *not* been
invoked — teardown is skipped on that exit path. -/
theorem teardown_skipped_C9 :
    (runMain ⟨true, false, true⟩ false (some [])
        (fun _ => ⟨[], true, true⟩)).status = .fatalAuth ∧
    (runMain ⟨true, false, true⟩ false (some [])
        (fun _ => ⟨[], true, true⟩)).cancelCalled = false := by
  decide

/-- C9 (amended): the combined cancel (timeout, browser context,
allocator) runs on the normal-completion exit path, but on the
authentication-failure and extraction-failure fatal paths the process
exits without invoking it, because `log.Fatal` exits without running
deferred functions. -/
theorem teardown_amended_C9 (fl : Flags) (authOk : Bool)
    (raw : Option (List VideoEntry)) (beh : Nat → LessonBehavior) :
    ((runMain fl authOk raw beh).status = .success →
      (runMain fl authOk raw beh).cancelCalled = true) ∧
    ((runMain fl authOk raw beh).status = .fatalAuth →
      (runMain fl authOk raw beh).cancelCalled = false) ∧
    ((runMain fl authOk raw beh).status = .fatalExtract →
      (runMain fl authOk raw beh).cancelCalled = false) := by
  cases hfv : (!fl.dlVideos && !fl.dlTranscripts) <;> cases authOk <;>
    cases hm : raw.bind canonicalizeVideos <;>
    simp [runMain, hfv, hm]

/-- C9 witness: the amended statement at a concrete successful run. -/
theorem teardown_amended_C9_witness :
    (runMain ⟨true, false, true⟩ true (some [])
      (fun _ => ⟨[], true, true⟩)).cancelCalled = true :=
  (teardown_amended_C9 ⟨true, false, true⟩ true (some [])
    (fun _ => ⟨[], true, true⟩)).1 rfl

/-! ## Claim C10: the video fetcher truncates before requesting -/

/-- C10: `downloadVideo` creates (and truncates) `filename + ".mp4"`
before issuing the HTTP request, so when building the request fails, the
request itself fails, or the response status is not 200, the error return
leaves an empty file at that path (the filesystem is not restored). -/
theorem video_fetch_truncate_C10 (env : DVEnv) (v : VideoEntry) (fs : FS)
    (url : List Char) (hsrc : env.videoSrc = some url) (hurl : url ≠ [])
    (hcreate : env.createOk = true) :
    (env.buildOk = false →
      (downloadVideo env v fs).1 = .buildFailed ∧
      fsGet (downloadVideo env v fs).2 (v.filename ++ ['.', 'm', 'p', '4']) =
        some []) ∧
    (env.buildOk = true → env.response = none →
      (downloadVideo env v fs).1 = .doFailed ∧
      fsGet (downloadVideo env v fs).2 (v.filename ++ ['.', 'm', 'p', '4']) =
        some []) ∧
    (∀ (status : Nat) (body : List Char), env.buildOk = true →
      env.response = some (status, body) → status ≠ 200 →
      (downloadVideo env v fs).1 = .badStatus status ∧
      fsGet (downloadVideo env v fs).2 (v.filename ++ ['.', 'm', 'p', '4']) =
        some []) := by
  refine ⟨?_, ?_, ?_⟩
  · intro hbuild
    simp [downloadVideo, hsrc, hurl, hcreate, hbuild, fsGet, fsSet]
  · intro hbuild hresp
    simp [downloadVideo, hsrc, hurl, hcreate, hbuild, hresp, fsGet, fsSet]
  · intro status body hbuild hresp hstatus
    simp [downloadVideo, hsrc, hurl, hcreate, hbuild, hresp, hstatus, fsGet,
      fsSet]

/-- C10 witness: a 404 response leaves the error and an empty `.mp4`
file. -/
theorem video_fetch_truncate_C10_witness :
    (downloadVideo ⟨some ['u'], true, true, some (404, ['b']), true, 0⟩
        ⟨[], [], [], 0, [], ['f']⟩ []).1 = .badStatus 404 ∧
    fsGet (downloadVideo ⟨some ['u'], true, true, some (404, ['b']), true, 0⟩
        ⟨[], [], [], 0, [], ['f']⟩ []).2 (['f'] ++ ['.', 'm', 'p', '4']) =
      some [] :=
  (video_fetch_truncate_C10 ⟨some ['u'], true, true, some (404, ['b']), true, 0⟩
      ⟨[], [], [], 0, [], ['f']⟩ [] ['u'] rfl (by decide) rfl).2.2
    404 ['b'] rfl rfl (by decide)

end LLD
